import Mathlib

/-!
Verification of the cache-key resolution and eviction/expiration engine of
the moize repository.  The JavaScript source is shallowly embedded: plain
JS arrays become Lean lists, the two cache representations of the two
source generations become explicit state records, timers become an
explicit list of scheduled (key, delay) records, and promise settlement
becomes explicit success/failure continuations.  Functions are translated
from the source files; the handful of operations whose defining file is
absent from the snapshot (the Cache class of the newer generation) are
modelled from the specification and marked as such in their doc comments.
-/

set_option maxHeartbeats 1000000

/-! ## Shared JS array helpers (from src/unnamed/part_000 and src/src/utils.js) -/

/-- Embedding of `splice(array, index)` from the source: shift every element
left of position `index` onward and shorten the array by one.  For an
in-range index this removes the element at `index`; for an out-of-range
index on a nonempty array the final length assignment drops the last
element; an empty array is returned unchanged. -/
def spliceJS {α : Type} (array : List α) (index : Nat) : List α :=
  if array.length = 0 then array
  else if index < array.length then array.take index ++ array.drop (index + 1)
  else array.dropLast

/-- Embedding of `take(size)(array)` from src/src/utils.js: return the array
unchanged when it already has at most `size` elements, use fixed-index
slicing for sizes one through five, and a generic slice beyond. -/
def takeJS {α : Type} (size : Nat) (array : List α) : List α :=
  if array.length ≤ size then array
  else
    match size, array with
    | 1, a0 :: _ => [a0]
    | 2, a0 :: a1 :: _ => [a0, a1]
    | 3, a0 :: a1 :: a2 :: _ => [a0, a1, a2]
    | 4, a0 :: a1 :: a2 :: a3 :: _ => [a0, a1, a2, a3]
    | 5, a0 :: a1 :: a2 :: a3 :: a4 :: _ => [a0, a1, a2, a3, a4]
    | _, _ => array.take size

/-- Embedding of `compose` from src/src/utils.js restricted to two
functions: `compose(f, g)` returns `(...args) => f(g(...args))`. -/
def composeJS {α β γ : Type} (f : β → γ) (g : α → β) : α → γ :=
  fun args => f (g args)

/-- JS `Map.prototype.set` on an association-list model of a Map: replace
the value of an existing entry with the same key, otherwise append the new
entry in insertion order. -/
def mapSet {K V : Type} [DecidableEq K] (m : List (K × V)) (k : K) (v : V) :
    List (K × V) :=
  if m.any (fun e => decide (e.1 = k)) then
    m.map (fun e => if e.1 = k then (e.1, v) else e)
  else m ++ [(k, v)]

/-- JS `Map.prototype.delete` on the association-list model: erase the
entry with the given key. -/
def mapDelete {K V : Type} [DecidableEq K] (m : List (K × V)) (k : K) :
    List (K × V) :=
  m.eraseP (fun e => decide (e.1 = k))

/-! ## Legacy engine state (src/unnamed/part_000)

The legacy generation stores the cache on the memoized function itself as
a `Map` (`fn.cache`) plus a most-recently-used key list (`fn.usage`).  The
state record also tracks the effects that matter for the claims: the
expiration timers scheduled through `setTimeout`, and the keys whose
promise settlement continuation is registered but not yet settled. -/

structure OldMoizeState (K V : Type) where
  cache : List (K × V)
  usage : List K
  timers : List (K × Int)
  pending : List K
deriving DecidableEq, Repr

/-- Embedding of `deleteItemFromCache(cache, usage, key)` from
src/unnamed/part_000: look the key up in the usage list with `indexOf`
(strict equality) and, only when found, splice it out of usage and delete
it from the cache Map. -/
def deleteItemFromCache {K V : Type} [DecidableEq K]
    (st : OldMoizeState K V) (key : K) : OldMoizeState K V :=
  match st.usage.findIdx? (fun u => decide (u = key)) with
  | none => st
  | some index =>
    { st with
      usage := spliceJS st.usage index
      cache := mapDelete st.cache key }

/-- Embedding of `setExpirationOfCache(fn, key, maxAge)` from
src/unnamed/part_000: schedule one `setTimeout` whose delay is
`Math.max(maxAge, 0)`; the timer payload is `deleteItemFromCache`. -/
def setExpirationOfCache {K V : Type} (st : OldMoizeState K V) (key : K)
    (maxAge : Int) : OldMoizeState K V :=
  { st with timers := st.timers ++ [(key, max maxAge 0)] }

/-- Firing of a timer scheduled by `setExpirationOfCache`: the `setTimeout`
callback body is exactly `deleteItemFromCache(cache, usage, key)`. -/
def fireExpirationTimer {K V : Type} [DecidableEq K]
    (st : OldMoizeState K V) (key : K) : OldMoizeState K V :=
  deleteItemFromCache st key

/-- Embedding of `setNewCachedValue(fn, key, value, isPromise,
isMaxAgeFinite, maxAge)` from src/unnamed/part_000.  For a promise the
`.then` continuation that will store the resolved value is registered (the
key becomes pending); otherwise the value is stored immediately.  In both
branches, when a finite maxAge is configured the expiration timer is
scheduled right away. -/
def setNewCachedValueLegacy {K V : Type} [DecidableEq K]
    (st : OldMoizeState K V) (key : K) (value : V) (isPromise : Bool)
    (isMaxAgeFinite : Bool) (maxAge : Int) : OldMoizeState K V :=
  let st1 :=
    if isPromise then { st with pending := st.pending ++ [key] }
    else { st with cache := mapSet st.cache key value }
  if isMaxAgeFinite then setExpirationOfCache st1 key maxAge else st1

/-- Settlement of the `.then` continuation registered by
`setNewCachedValueLegacy` for a promise: `fn.cache.set(key, resolvedValue)`
runs and the key is no longer pending. -/
def settleLegacyPromise {K V : Type} [DecidableEq K]
    (st : OldMoizeState K V) (key : K) (resolvedValue : V) :
    OldMoizeState K V :=
  { st with
    cache := mapSet st.cache key resolvedValue
    pending := st.pending.erase key }

/-! ## Cache store of the newer engine (src/src/utils.js)

The `Cache` class file is absent from the snapshot; only its callers in
src/src/utils.js are present.  Its operations are therefore modelled from
the specification (section 4.3): the entry list is ordered by recency with
index 0 the most recently used, `add` prepends, `update` replaces a value
in place, `remove` deletes the entry, `has` tests membership, and
`expireAfter` schedules a one-shot timer of duration `max(maxAge, 0)`
(section 4.4). -/

structure CacheState (K V : Type) where
  list : List (K × V)
  timers : List (K × Int)
deriving DecidableEq, Repr

/-- Modelled from the spec: `size` is the number of entries. -/
def CacheState.size {K V : Type} (c : CacheState K V) : Nat :=
  c.list.length

/-- Modelled from the spec: `add(key, value)` prepends a brand-new entry
at the head of the recency-ordered entry list. -/
def CacheState.add {K V : Type} (c : CacheState K V) (k : K) (v : V) :
    CacheState K V :=
  { c with list := (k, v) :: c.list }

/-- Modelled from the spec: `update(key, value)` replaces the value of the
existing entry in place without moving its position. -/
def CacheState.update {K V : Type} [DecidableEq K] (c : CacheState K V)
    (k : K) (v : V) : CacheState K V :=
  { c with list := c.list.map (fun e => if e.1 = k then (e.1, v) else e) }

/-- Modelled from the spec: `remove(key)` deletes the entry with the given
key; a no-op when absent. -/
def CacheState.remove {K V : Type} [DecidableEq K] (c : CacheState K V)
    (k : K) : CacheState K V :=
  { c with list := c.list.eraseP (fun e => decide (e.1 = k)) }

/-- Modelled from the spec: `has(key)` is true iff an entry with an equal
key exists. -/
def CacheState.has {K V : Type} [DecidableEq K] (c : CacheState K V)
    (k : K) : Bool :=
  c.list.any (fun e => decide (e.1 = k))

/-- Modelled from the spec: `expireAfter(key, maxAge)` schedules a
one-shot removal timer for the key with delay `max(maxAge, 0)`. -/
def CacheState.expireAfter {K V : Type} (c : CacheState K V) (k : K)
    (maxAge : Int) : CacheState K V :=
  { c with timers := c.timers ++ [(k, max maxAge 0)] }

/-- The key of the tail entry `cache.list[cache.list.length - 1].key`
read by the eviction branch of `createSetNewCachedValue`. -/
def CacheState.tailKey {K V : Type} (c : CacheState K V) (fallback : K) : K :=
  match c.list.getLast? with
  | some e => e.1
  | none => fallback

/-- Embedding of the non-promise branch of
`createSetNewCachedValue(cache, options)` from src/src/utils.js:
`cache.add(key, value)`, then `cache.expireAfter(key, maxAge)` when a
finite positive maxAge is configured, then removal of the tail entry when
a finite positive maxSize is configured and `cache.size > maxSize`. -/
def setNewCachedValueStandard {K V : Type} [DecidableEq K]
    (c : CacheState K V) (key : K) (value : V) (hasMaxAge : Bool)
    (maxAge : Int) (hasMaxSize : Bool) (maxSize : Nat) : CacheState K V :=
  let c1 := c.add key value
  let c2 := if hasMaxAge then c1.expireAfter key maxAge else c1
  if hasMaxSize && decide (maxSize < c2.size) then
    c2.remove (c2.tailKey key)
  else c2

/-- Embedding of the promise branch of `createSetNewCachedValue` from
src/src/utils.js: the pending handler `value.then(resolver, rejecter)` is
added at the head with `cache.add(key, handler)` and the tail is evicted
when oversize; no expiration timer is scheduled in this branch. -/
def setNewCachedValuePromise {K V : Type} [DecidableEq K]
    (c : CacheState K V) (key : K) (handler : V) (hasMaxSize : Bool)
    (maxSize : Nat) : CacheState K V :=
  let c1 := c.add key handler
  if hasMaxSize && decide (maxSize < c1.size) then
    c1.remove (c1.tailKey key)
  else c1

/-- Embedding of `createPromiseResolver(cache, key, hasMaxAge, options)`
from src/src/utils.js: on settlement success run
`cache.update(key, promiseLibrary.resolve(resolvedValue))` — the stored
value is the settled value, re-wrapped in an already-resolved promise
which the embedding represents by the settled value itself — and only
then, when maxAge is configured, `cache.expireAfter(key, maxAge)`. -/
def promiseResolver {K V : Type} [DecidableEq K] (c : CacheState K V)
    (key : K) (hasMaxAge : Bool) (maxAge : Int) (resolvedValue : V) :
    CacheState K V :=
  let c1 := c.update key resolvedValue
  if hasMaxAge then c1.expireAfter key maxAge else c1

/-- Embedding of `createPromiseRejecter(cache, key, options)` from
src/src/utils.js: on settlement failure run `cache.remove(key)` and return
`promiseLibrary.reject(exception)` carrying the original exception. -/
def promiseRejecter {K V E : Type} [DecidableEq K] (c : CacheState K V)
    (key : K) (exception : E) : CacheState K V × Except E Unit :=
  (c.remove key, Except.error exception)

/-- The list of keys of a cache state, in recency order. -/
def CacheState.keyList {K V : Type} (c : CacheState K V) : List K :=
  c.list.map Prod.fst

/-! ## Default options (src/src/constants.ts) -/

structure OptionsModel where
  isDeepEqual : Bool
  isPromise : Bool
  isReact : Bool
  isSerialized : Bool
  isShallowEqual : Bool
  maxAge : Option Int
  maxArgs : Option Nat
  maxSize : Nat
  updateExpire : Bool
deriving DecidableEq, Repr

/-- Embedding of `DEFAULT_OPTIONS` from src/src/constants.ts (the fields
relevant to the cache engine; the function-valued fields default to
`undefined` and the numeric bounds to `undefined` except `maxSize: 1`). -/
def DEFAULT_OPTIONS : OptionsModel :=
  { isDeepEqual := false
    isPromise := false
    isReact := false
    isSerialized := false
    isShallowEqual := false
    maxAge := none
    maxArgs := none
    maxSize := 1
    updateExpire := false }

/-! ## Standard cache keys and the key resolver (src/src/utils.js)

The SingleParameterCacheKey and MultipleParameterCacheKey class files are
absent from the snapshot, so the variant is represented as a tagged union
and the resolver is stated for an arbitrary `matchesFn` predicate; only the
constructions visible in src/src/utils.js (which variant is built on a
total miss, and the scan order) are fixed by the source. -/

inductive StandardCacheKey (A : Type) where
  | single (args : List A)
  | multiple (args : List A)
deriving DecidableEq, Repr

/-- Embedding of the `while (index < cache.size)` scan of
`getStandardCacheKey` from src/src/utils.js, starting at the given index:
return the key of the first entry whose `matchesFn(key, isMultiParamKey)` is
true, or nothing. -/
def standardKeyScan {A V : Type}
    (matchesFn : StandardCacheKey A → List A → Bool → Bool)
    (list : List (StandardCacheKey A × V)) (key : List A) (isMulti : Bool)
    (index : Nat) : Option (StandardCacheKey A) :=
  if h : index < list.length then
    if matchesFn (list.get ⟨index, h⟩).1 key isMulti then
      some (list.get ⟨index, h⟩).1
    else standardKeyScan matchesFn list key isMulti (index + 1)
  else none
termination_by list.length - index

/-- Embedding of `getStandardCacheKey(cache, key)` from src/src/utils.js:
compute `isMultiParamKey = key.length > 1`; when the cache is nonempty
test the most-recently-used entry (`cache.lastItem`, the head of the
recency list) first; on a head miss scan from index 1; on a total miss
construct a fresh MultipleParameterCacheKey or SingleParameterCacheKey
according to `isMultiParamKey`. -/
def getStandardCacheKey {A V : Type}
    (matchesFn : StandardCacheKey A → List A → Bool → Bool)
    (c : CacheState (StandardCacheKey A) V) (key : List A) :
    StandardCacheKey A :=
  let isMulti : Bool := decide (1 < key.length)
  let onHeadMiss : StandardCacheKey A :=
    match standardKeyScan matchesFn c.list key isMulti 1 with
    | some found => found
    | none =>
      if 1 < key.length then StandardCacheKey.multiple key
      else StandardCacheKey.single key
  if h : 0 < c.list.length then
    if matchesFn (c.list.get ⟨0, h⟩).1 key isMulti then (c.list.get ⟨0, h⟩).1
    else onHeadMiss
  else onHeadMiss

/-! ## ReactCacheKey (src/src/ReactCacheKey.js)

JS objects appear as association lists of own enumerable properties, and
a JS value is either a primitive or an object reference; strict equality
`===` on values is equality of the representation, so reference equality
on objects.  Reading a missing property yields `undefined`, and applying
`Object.keys` to `undefined` throws a TypeError, modelled with `Except`. -/

inductive RVal where
  | vundef
  | vnum (n : Int)
  | vstr (s : String)
  | vref (id : Nat)
deriving DecidableEq, Repr

abbrev RObj := List (String × RVal)

/-- `Object.keys` of an object: its own enumerable property names. -/
def jsKeys (o : RObj) : List String := o.map Prod.fst

/-- Property read `o[k]`: the stored value, or `undefined` when absent. -/
def jsGet (o : RObj) (k : String) : RVal :=
  match o.find? (fun e => decide (e.1 = k)) with
  | some e => e.2
  | none => RVal.vundef

/-- The `key` record built by the ReactCacheKey constructor from
src/src/ReactCacheKey.js: `props = key[0]`, `context = key[1]`, and each
size is the `Object.keys` length when the half is truthy, else 0. -/
structure ReactKey where
  props : Option RObj
  propsSize : Nat
  context : Option RObj
  contextSize : Nat
deriving DecidableEq, Repr

/-- Embedding of the ReactCacheKey constructor: a missing props or context
element is tolerated and recorded with size 0. -/
def mkReactCacheKey (key0 key1 : Option RObj) : ReactKey :=
  { props := key0
    propsSize := match key0 with
      | some o => (jsKeys o).length
      | none => 0
    context := key1
    contextSize := match key1 with
      | some o => (jsKeys o).length
      | none => 0 }

/-- The `while` loop of `_isPropShallowEqual`: walk the candidate keys and
compare `object[keys[index]]` with `this.key[prop][keys[index]]` under
strict equality; reading a property of an `undefined` stored half throws. -/
def shallowLoop (stored : Option RObj) (object : RObj) :
    List String → Except String Bool
  | [] => Except.ok true
  | k :: rest =>
    match stored with
    | none => Except.error "TypeError"
    | some so =>
      if jsGet object k = jsGet so k then shallowLoop stored object rest
      else Except.ok false

/-- Embedding of `_isPropShallowEqual(prop, object)` from
src/src/ReactCacheKey.js: `Object.keys(object)` throws on an absent
candidate half; otherwise the own-property count is checked first against
the stored size, rejecting immediately on mismatch, and then each
first-level value is compared with strict equality. -/
def isPropShallowEqualE (stored : Option RObj) (storedSize : Nat)
    (candidate : Option RObj) : Except String Bool :=
  match candidate with
  | none => Except.error "TypeError"
  | some o =>
    if (jsKeys o).length ≠ storedSize then Except.ok false
    else shallowLoop stored o (jsKeys o)

/-- Embedding of the matches method of src/src/ReactCacheKey.js: the
conjunction of the `_isPropShallowEqual` check of the props half against
`key[0]` and of the context half against `key[1]`, with JS short-circuit
evaluation: a thrown error propagates, and a false props half skips the
context half entirely. -/
def reactMatchesE (rk : ReactKey) (cand0 cand1 : Option RObj) :
    Except String Bool :=
  match isPropShallowEqualE rk.props rk.propsSize cand0 with
  | Except.error e => Except.error e
  | Except.ok false => Except.ok false
  | Except.ok true => isPropShallowEqualE rk.context rk.contextSize cand1

/-! ## Legacy argument serialization (src/unnamed/part_000)

For the type-collision claim only non-complex JS values are needed: a
number, a string, a boolean or null interpolated into a template string.
`isComplexObject` is false for all of them, so `getStringifiedArgument`
hands them to string interpolation untouched. -/

inductive SVal where
  | vnull
  | vbool (b : Bool)
  | vnum (n : Int)
  | vstr (s : String)
deriving DecidableEq, Repr

/-- JS template-string interpolation for the non-complex values above. -/
def jsToString : SVal → String
  | SVal.vnull => "null"
  | SVal.vbool b => if b then "true" else "false"
  | SVal.vnum n => toString n
  | SVal.vstr s => s

/-- Embedding of `getStringifiedArgument(arg)` from src/unnamed/part_000
restricted to non-complex arguments: `isComplexObject(arg)` is false, so
the argument itself is interpolated without stringification. -/
def getStringifiedArgument (arg : SVal) : String := jsToString arg

/-- Embedding of `serializeArguments(args)` from src/unnamed/part_000: the
key starts as the string bar and every argument appends its stringified
form followed by another bar. -/
def serializeArguments (args : List SVal) : String :=
  args.foldl (fun key arg => key ++ getStringifiedArgument arg ++ "|") "|"

/-! ## Cycle-safe stringification (src/unnamed/part_000)

JS object graphs are embedded as a heap: a list of nodes, where arrays and
objects hold the heap indices of their elements, so that reference
identity is index equality.  `JSON.stringify` is embedded with an explicit
stack of the object ids currently being stringified, throwing on a
revisit, and `decycle` with the growing `objects` / `paths` lists of the
source.  Both carry fuel because a cyclic heap admits no structural
recursion; the fuel `nodes.length + 1` is proven sufficient below. -/

inductive JNode where
  | jnull
  | jbool (b : Bool)
  | jnum (n : Int)
  | jstr (s : String)
  | jarr (elems : List Nat)
  | jobj (fields : List (String × Nat))
deriving DecidableEq, Repr

structure JHeap where
  nodes : List JNode
deriving DecidableEq, Repr

/-- The heap references held directly by a node. -/
def JNode.refs : JNode → List Nat
  | JNode.jarr elems => elems
  | JNode.jobj fields => fields.map Prod.snd
  | _ => []

/-- Well-formedness of a heap: every reference points into the heap. -/
def heapWf (h : JHeap) : Prop :=
  ∀ node ∈ h.nodes, ∀ r ∈ node.refs, r < h.nodes.length

instance (h : JHeap) : Decidable (heapWf h) := by
  unfold heapWf
  infer_instance

/-- JSON string escaping of one character (quote and backslash). -/
def jsonEscapeChar (c : Char) : String :=
  if c = '\\' then "\\\\"
  else if c = '\"' then "\\\""
  else String.singleton c

/-- JSON string quoting, as produced by `JSON.stringify` on a string. -/
def jsonQuote (s : String) : String :=
  "\"" ++ String.join (s.toList.map jsonEscapeChar) ++ "\""

/-- Sequencing of child results: the first missing result (exhausted fuel)
or thrown error is propagated, otherwise the rendered pieces are kept. -/
def collectResults {E A : Type} :
    List (Option (Except E A)) → Option (Except E (List A))
  | [] => some (Except.ok [])
  | none :: _ => none
  | some (Except.error e) :: _ => some (Except.error e)
  | some (Except.ok s) :: rest =>
    match collectResults rest with
    | none => none
    | some (Except.error e) => some (Except.error e)
    | some (Except.ok ss) => some (Except.ok (s :: ss))

/-- Embedding of `JSON.stringify` on the heap: primitives render directly,
arrays and objects first check the stack of ids currently being rendered
and throw on a circular structure, then render their children with
themselves pushed on the stack.  `none` means the fuel ran out. -/
def stringifyJ (h : JHeap) : Nat → Nat → List Nat → Option (Except Unit String)
  | 0, _, _ => none
  | fuel + 1, id, stack =>
    match h.nodes[id]? with
    | none => some (Except.ok "null")
    | some JNode.jnull => some (Except.ok "null")
    | some (JNode.jbool b) => some (Except.ok (if b then "true" else "false"))
    | some (JNode.jnum n) => some (Except.ok (toString n))
    | some (JNode.jstr s) => some (Except.ok (jsonQuote s))
    | some (JNode.jarr elems) =>
      if id ∈ stack then some (Except.error ())
      else
        match collectResults
            (elems.map (fun e => stringifyJ h fuel e (id :: stack))) with
        | none => none
        | some (Except.error e) => some (Except.error e)
        | some (Except.ok parts) =>
          some (Except.ok ("[" ++ String.intercalate "," parts ++ "]"))
    | some (JNode.jobj fields) =>
      if id ∈ stack then some (Except.error ())
      else
        match collectResults
            (fields.map (fun f =>
              (stringifyJ h fuel f.2 (id :: stack)).map
                (Except.map (fun s => jsonQuote f.1 ++ ":" ++ s)))) with
        | none => none
        | some (Except.error e) => some (Except.error e)
        | some (Except.ok parts) =>
          some (Except.ok ("\x7b" ++ String.intercalate "," parts ++ "\x7d"))

/-- The acyclic tree produced by `decycle`: the same shapes as heap nodes
plus the `$ref` path-marker object replacing a repeated substructure. -/
inductive JTree where
  | tnull
  | tbool (b : Bool)
  | tnum (n : Int)
  | tstr (s : String)
  | tarr (elems : List JTree)
  | tobj (fields : List (String × JTree))
  | tref (path : String)
deriving Repr

/-- The `objects` and `paths` lists threaded through `derez`. -/
structure DState where
  objects : List Nat
  paths : List String
deriving DecidableEq, Repr

/-- Embedding of the inner `derez(value, path)` of `decycle` from
src/unnamed/part_000: a complex value already present in `objects`
(reference identity, here id equality) becomes the path marker
`{$ref: paths[index]}`; a new complex value is pushed with its path and
its children are derezzed in order with paths extended as in the source;
primitives pass through.  The wrapper-class exemptions of the source
(instances of Boolean, Date, Number, RegExp, String are treated as
primitives) have no counterpart here because the heap embedding does not
represent wrapper objects. -/
def derez (h : JHeap) : Nat → Nat → String → DState → Option (JTree × DState)
  | 0, _, _, _ => none
  | fuel + 1, id, path, st =>
    match h.nodes[id]? with
    | none => some (JTree.tnull, st)
    | some JNode.jnull => some (JTree.tnull, st)
    | some (JNode.jbool b) => some (JTree.tbool b, st)
    | some (JNode.jnum n) => some (JTree.tnum n, st)
    | some (JNode.jstr s) => some (JTree.tstr s, st)
    | some (JNode.jarr elems) =>
      match st.objects.findIdx? (fun o => decide (o = id)) with
      | some index => some (JTree.tref (st.paths.getD index ""), st)
      | none =>
        match (elems.enum.foldl
            (fun acc (p : Nat × Nat) =>
              match acc with
              | none => none
              | some (ts, stAcc) =>
                match derez h fuel p.2
                    (path ++ "[" ++ toString p.1 ++ "]") stAcc with
                | none => none
                | some (t, stNext) => some (ts ++ [t], stNext))
            (some ([], ⟨st.objects ++ [id], st.paths ++ [path]⟩))) with
        | none => none
        | some (ts, st2) => some (JTree.tarr ts, st2)
    | some (JNode.jobj fields) =>
      match st.objects.findIdx? (fun o => decide (o = id)) with
      | some index => some (JTree.tref (st.paths.getD index ""), st)
      | none =>
        match (fields.foldl
            (fun acc (f : String × Nat) =>
              match acc with
              | none => none
              | some (ts, stAcc) =>
                match derez h fuel f.2
                    (path ++ "[" ++ jsonQuote f.1 ++ "]") stAcc with
                | none => none
                | some (t, stNext) => some (ts ++ [(f.1, t)], stNext))
            (some ([], ⟨st.objects ++ [id], st.paths ++ [path]⟩))) with
        | none => none
        | some (ts, st2) => some (JTree.tobj ts, st2)

/-- Invariant of the `objects` list threaded through `derez`: the
remembered object ids are pairwise distinct and point into the heap. -/
def dstateOk (h : JHeap) (st : DState) : Prop :=
  st.objects.Nodup ∧ ∀ x ∈ st.objects, x < h.nodes.length

/-- `JSON.stringify` of the acyclic tree returned by `decycle`; total,
because the tree holds no references. -/
def treeToJson : JTree → String
  | JTree.tnull => "null"
  | JTree.tbool b => if b then "true" else "false"
  | JTree.tnum n => toString n
  | JTree.tstr s => jsonQuote s
  | JTree.tref p => "\x7b\"$ref\":" ++ jsonQuote p ++ "\x7d"
  | JTree.tarr elems =>
    "[" ++ String.intercalate ","
      (elems.attach.map (fun e => treeToJson e.1)) ++ "]"
  | JTree.tobj fields =>
    "\x7b" ++ String.intercalate ","
      (fields.attach.map (fun f => jsonQuote f.1.1 ++ ":" ++ treeToJson f.1.2))
      ++ "\x7d"
decreasing_by
  · simp only [JTree.tarr.sizeOf_spec]
    have := List.sizeOf_lt_of_mem e.2
    omega
  · simp only [JTree.tobj.sizeOf_spec]
    have h1 := List.sizeOf_lt_of_mem f.2
    have h2 : sizeOf f.1.2 < sizeOf f.1 := by
      obtain ⟨⟨a, b⟩, hf⟩ := f
      simp only [Prod.mk.sizeOf_spec]
      omega
    omega

/-- `JSON.stringify(value)` at the top level, with the proven-sufficient
fuel. -/
def jsonStringifyHeap (h : JHeap) (root : Nat) : Option (Except Unit String) :=
  stringifyJ h (h.nodes.length + 1) root []

/-- Embedding of `decycle(object)` from src/unnamed/part_000:
`derez(object, path)` starting from the dollar path with empty `objects`
and `paths`. -/
def decycleHeap (h : JHeap) (root : Nat) : Option JTree :=
  (derez h (h.nodes.length + 1) root "$" ⟨[], []⟩).map Prod.fst

/-- Embedding of `stringify(value)` from src/unnamed/part_000: try plain
`JSON.stringify(value)`, and exactly when it throws return
`JSON.stringify(decycle(value))`. -/
def stringifyJS (h : JHeap) (root : Nat) : Option String :=
  match jsonStringifyHeap h root with
  | some (Except.ok s) => some s
  | some (Except.error _) => (decycleHeap h root).map treeToJson
  | none => none

/-! ## Argument pipeline (src/src/utils.js createGetCacheKey) -/

/-- The slice of the options record that drives the transform composition
in `createGetCacheKey`: `hasMaxArgs` stands for
`isFiniteAndPositiveInteger(options.maxArgs)`, and for the claims the
user transform and the serializer act on the argument list. -/
structure GetKeyOptions (A : Type) where
  hasMaxArgs : Bool
  maxArgs : Nat
  transformArgs : Option (List A → List A)
  serialize : Bool
  serializer : List A → List A

/-- Embedding of the transform composition of `createGetCacheKey(cache,
options)` from src/src/utils.js: start from `options.transformArgs`;
when maxArgs is configured compose the user transform after the truncation
`take(options.maxArgs)`; when serialization is configured compose
`options.serializer` last. -/
def createGetCacheKeyTransform {A : Type} (o : GetKeyOptions A) :
    Option (List A → List A) :=
  let t0 := o.transformArgs
  let t1 :=
    if o.hasMaxArgs then
      some (match t0 with
        | some t => composeJS t (takeJS o.maxArgs)
        | none => takeJS o.maxArgs)
    else t0
  if o.serialize then
    some (match t1 with
      | some t => composeJS o.serializer t
      | none => o.serializer)
  else t1

/-- The value handed to the key lookup method by the function returned
from `createGetCacheKey`: `transform(key)` when a transform was composed,
otherwise the raw key. -/
def cacheKeyInput {A : Type} (o : GetKeyOptions A) (args : List A) : List A :=
  match createGetCacheKeyTransform o with
  | some t => t args
  | none => args

/-! ## Concrete inputs used by witnesses and counterexamples -/

/-- A one-node heap whose object refers to itself: `o = \x7bself: o\x7d`. -/
def cyclicSelfHeap : JHeap := ⟨[JNode.jobj [("self", 0)]]⟩

/-- A concrete options record with maxArgs 2, a reversing user transform
and a prepending serializer stand-in. -/
def pipelineOptions : GetKeyOptions Nat :=
  { hasMaxArgs := true
    maxArgs := 2
    transformArgs := some (fun l => l.reverse)
    serialize := true
    serializer := fun l => 0 :: l }

/-! ## Helper lemmas -/

theorem findIdxPred_none_iff_not_mem {K : Type} [DecidableEq K]
    (l : List K) (k : K) :
    l.findIdx? (fun u => decide (u = k)) = none ↔ k ∉ l := by
  rw [List.findIdx?_eq_none_iff]
  constructor
  · intro h hmem
    have := h k hmem
    simp at this
  · intro h x hx
    simp only [decide_eq_false_iff_not]
    intro hxk
    exact h (hxk ▸ hx)

theorem findIdxPred_of_mem {K : Type} [DecidableEq K]
    {l : List K} {k : K} (h : k ∈ l) :
    ∃ i, l.findIdx? (fun u => decide (u = k)) = some i ∧
      i < l.length ∧ spliceJS l i = l.erase k := by
  induction l with
  | nil => cases h
  | cons a rest ih =>
    by_cases ha : a = k
    · refine ⟨0, ?_, by simp, ?_⟩
      · rw [List.findIdx?_cons]
        simp [ha]
      · subst ha
        simp [spliceJS, List.erase_cons_head]
    · have hmem : k ∈ rest := by
        rcases List.mem_cons.mp h with h1 | h2
        · exact absurd h1.symm ha
        · exact h2
      obtain ⟨i, hfind, hlt, hsplice⟩ := ih hmem
      refine ⟨i + 1, ?_, by simp; omega, ?_⟩
      · rw [List.findIdx?_cons, if_neg (by simp [ha]), List.findIdx?_succ,
          hfind]
        rfl
      · rw [List.erase_cons_tail (by simp [ha])]
        unfold spliceJS at hsplice ⊢
        have hrl : rest.length ≠ 0 := by
          intro h0
          rw [List.length_eq_zero] at h0
          subst h0
          cases hmem
        rw [if_neg (by simp), if_pos (by simp; omega)]
        rw [if_neg hrl, if_pos hlt] at hsplice
        simp [List.take_succ_cons, List.drop_succ_cons, hsplice]

theorem eraseP_keyNodup_not_found {K V : Type} [DecidableEq K]
    (l : List (K × V)) (k : K) (h : (l.map Prod.fst).Nodup) :
    (l.eraseP (fun e => decide (e.1 = k))).any
      (fun e => decide (e.1 = k)) = false := by
  induction l with
  | nil => simp
  | cons e rest ih =>
    simp only [List.map_cons, List.nodup_cons] at h
    by_cases he : e.1 = k
    · rw [List.eraseP_cons_of_pos (by simp [he])]
      subst he
      simp only [List.any_eq_false]
      intro x hx
      simp only [decide_eq_true_eq]
      intro hxk
      exact h.1 (hxk ▸ List.mem_map_of_mem Prod.fst hx)
    · rw [List.eraseP_cons_of_neg (by simp [he])]
      simp only [List.any_cons, ih h.2, Bool.or_false]
      simp [he]

theorem cacheHas_iff_mem_keyList {K V : Type} [DecidableEq K]
    (c : CacheState K V) (k : K) : c.has k = true ↔ k ∈ c.keyList := by
  unfold CacheState.has CacheState.keyList
  rw [List.any_eq_true]
  constructor
  · rintro ⟨e, he, hk⟩
    simp only [decide_eq_true_eq] at hk
    exact hk ▸ List.mem_map_of_mem Prod.fst he
  · intro hmem
    obtain ⟨e, he, hk⟩ := List.mem_map.mp hmem
    exact ⟨e, he, by simp [hk]⟩

/-! ## Claim C9 -/

/-- C9: serialized keys do not encode primitive types.  The distinct
argument tuples `[1]` and `["1"]` serialize to the identical string bar-1-bar
because non-object arguments are interpolated without stringification, so
both tuples are treated as the same cache key in serialized mode. -/
theorem serializedKeyTypeCollision :
    serializeArguments [SVal.vnum 1] = serializeArguments [SVal.vstr "1"] ∧
    serializeArguments [SVal.vnum 1] = "|1|" ∧
    [SVal.vnum 1] ≠ [SVal.vstr "1"] := by
  refine ⟨by rfl, by rfl, by decide⟩

/-! ## Claim C2 -/

/-- C2 counterexample: the claim states that a stale timer whose entry was
removed and re-added under an equal key is a no-op that never deletes the
entry now occupying the key.  Concretely: after entry (7, 10) was added
with a timer, removed, and (7, 20) re-added, the usage list is `[7]` and
the cache holds `(7, 20)`; when the stale timer for key 7 fires,
`deleteItemFromCache` finds key 7 by `indexOf` and deletes the re-added
entry, leaving the cache empty, contradicting the claimed no-op. -/
theorem staleTimerDeletesReAddedEntry :
    fireExpirationTimer
        (⟨[(7, 20)], [7], [], []⟩ : OldMoizeState Nat Nat) 7 =
      (⟨[], [], [], []⟩ : OldMoizeState Nat Nat) ∧
    (⟨[(7, 20)], [7], [], []⟩ : OldMoizeState Nat Nat).cache = [(7, 20)] := by
  refine ⟨by decide, by rfl⟩

/-- C2 amended: for every key with maxAge configured,
`setExpirationOfCache` schedules a one-shot timer of duration
`max(maxAge, 0)` whose payload removes the entry for that key; at fire
time the timer re-checks presence only (by key equality via `indexOf`): it
is a no-op when the key is absent from the usage list, and otherwise it
splices the key out of usage and deletes the cache entry under that key —
including an entry that was re-added under an equal key after a removal
(it performs no identity re-check of the entry). -/
theorem expirationTimerBehavior {K V : Type} [DecidableEq K]
    (st : OldMoizeState K V) (key : K) (maxAge : Int) :
    ((setExpirationOfCache st key maxAge).timers =
      st.timers ++ [(key, max maxAge 0)]) ∧
    (key ∉ st.usage → fireExpirationTimer st key = st) ∧
    (key ∈ st.usage →
      (fireExpirationTimer st key).usage = st.usage.erase key ∧
      (fireExpirationTimer st key).cache = mapDelete st.cache key) := by
  refine ⟨rfl, ?_, ?_⟩
  · intro habs
    unfold fireExpirationTimer deleteItemFromCache
    rw [(findIdxPred_none_iff_not_mem st.usage key).mpr habs]
  · intro hmem
    obtain ⟨i, hfind, _, hsplice⟩ := findIdxPred_of_mem hmem
    unfold fireExpirationTimer deleteItemFromCache
    rw [hfind]
    exact ⟨hsplice, rfl⟩

/-- Witness for `expirationTimerBehavior` at concrete inputs: a negative
maxAge is coalesced to 0, firing for an absent key is a no-op, and firing
for a present key removes it. -/
theorem expirationTimerBehaviorApplied :
    ((setExpirationOfCache (⟨[(7, 10)], [7], [], []⟩ : OldMoizeState Nat Nat)
        7 (-3)).timers = [] ++ [(7, max (-3) 0)]) ∧
    (fireExpirationTimer (⟨[(7, 10)], [7], [], []⟩ : OldMoizeState Nat Nat) 9 =
      (⟨[(7, 10)], [7], [], []⟩ : OldMoizeState Nat Nat)) ∧
    ((fireExpirationTimer (⟨[(7, 10)], [7], [], []⟩ : OldMoizeState Nat Nat)
        7).usage = [7].erase 7) :=
  ⟨(expirationTimerBehavior (⟨[(7, 10)], [7], [], []⟩ : OldMoizeState Nat Nat)
      7 (-3)).1,
   (expirationTimerBehavior (⟨[(7, 10)], [7], [], []⟩ : OldMoizeState Nat Nat)
      9 0).2.1 (by decide),
   ((expirationTimerBehavior (⟨[(7, 10)], [7], [], []⟩ : OldMoizeState Nat Nat)
      7 0).2.2 (by decide)).1⟩

/-! ## Claim C1 -/

/-- C1 counterexample: the claim states that for a deferred result no
expiration timer for the key is armed at add time, before settlement.  In
the legacy `setNewCachedValue` of src/unnamed/part_000, storing a promise
with a finite maxAge registers the settlement continuation and immediately
schedules the expiration timer: starting from the empty state, a timer for
key 0 with delay 5 exists while the key is still pending and the cache is
still empty. -/
theorem legacyPromiseTimerArmedAtAdd :
    (setNewCachedValueLegacy (⟨[], [], [], []⟩ : OldMoizeState Nat Nat)
        0 7 true true 5).timers = [(0, 5)] ∧
    (setNewCachedValueLegacy (⟨[], [], [], []⟩ : OldMoizeState Nat Nat)
        0 7 true true 5).pending = [0] ∧
    (setNewCachedValueLegacy (⟨[], [], [], []⟩ : OldMoizeState Nat Nat)
        0 7 true true 5).cache = [] := by
  refine ⟨by decide, by decide, by rfl⟩

/-- C1 amended: in the Cache-class path of src/src/utils.js the claim
holds as stated — the promise branch of `createSetNewCachedValue`
schedules no expiration timer at add time, and on settlement success
`createPromiseResolver` replaces the value for the key in place via
`update` (position preserved) and only then, when maxAge is configured,
arms the one-shot timer — whereas the legacy `setNewCachedValue` of
src/unnamed/part_000 arms the timer already at add time (see the
counterexample). -/
theorem deferredSettlementExpiration {K V : Type} [DecidableEq K]
    (c : CacheState K V) (key : K) (handler : V) (hasMaxSize : Bool)
    (maxSize : Nat) (hasMaxAge : Bool) (maxAge : Int) (v : V)
    (l1 l2 : List (K × V)) (old : V) :
    ((setNewCachedValuePromise c key handler hasMaxSize maxSize).timers =
      c.timers) ∧
    (c.list = l1 ++ (key, old) :: l2 → (∀ e ∈ l1, e.1 ≠ key) →
      (∀ e ∈ l2, e.1 ≠ key) →
      (promiseResolver c key hasMaxAge maxAge v).list =
        l1 ++ (key, v) :: l2) ∧
    ((promiseResolver c key hasMaxAge maxAge v).timers =
      c.timers ++ (if hasMaxAge then [(key, max maxAge 0)] else [])) := by
  refine ⟨?_, ?_, ?_⟩
  · unfold setNewCachedValuePromise CacheState.add CacheState.remove
    dsimp only
    split
    · rfl
    · rfl
  · intro hlist h1 h2
    unfold promiseResolver CacheState.update CacheState.expireAfter
    dsimp only
    have hmap : (c.list.map
        (fun e => if e.1 = key then (e.1, v) else e)) =
        l1 ++ (key, v) :: l2 := by
      rw [hlist, List.map_append, List.map_cons]
      rw [if_pos rfl]
      congr 1
      · calc l1.map (fun e => if e.1 = key then (e.1, v) else e)
            = l1.map id := by
              apply List.map_congr_left
              intro e he
              rw [if_neg (h1 e he)]
              rfl
          _ = l1 := List.map_id l1
      · congr 1
        calc l2.map (fun e => if e.1 = key then (e.1, v) else e)
            = l2.map id := by
              apply List.map_congr_left
              intro e he
              rw [if_neg (h2 e he)]
              rfl
          _ = l2 := List.map_id l2
    split
    · exact hmap
    · exact hmap
  · unfold promiseResolver CacheState.update CacheState.expireAfter
    dsimp only
    split
    · rfl
    · rw [List.append_nil]

/-- Witness for `deferredSettlementExpiration` at concrete inputs: a
promise add schedules no timer, settlement success replaces the value of
key 5 in place, and the timer is armed only then. -/
theorem deferredSettlementExpirationApplied :
    ((setNewCachedValuePromise
        (⟨[(3, 9), (5, 11)], []⟩ : CacheState Nat Nat) 6 0 true 5).timers
      = []) ∧
    ((promiseResolver (⟨[(3, 9), (5, 11)], []⟩ : CacheState Nat Nat)
        5 true 4 12).list = [(3, 9)] ++ (5, 12) :: []) ∧
    ((promiseResolver (⟨[(3, 9), (5, 11)], []⟩ : CacheState Nat Nat)
        5 true 4 12).timers = [] ++ (if true then [(5, max 4 0)] else [])) :=
  ⟨(deferredSettlementExpiration
      (⟨[(3, 9), (5, 11)], []⟩ : CacheState Nat Nat) 6 0 true 5 true 4 12
      [] [] 0).1,
   (deferredSettlementExpiration
      (⟨[(3, 9), (5, 11)], []⟩ : CacheState Nat Nat) 5 0 true 5 true 4 12
      [(3, 9)] [] 11).2.1 rfl (by decide) (by decide),
   (deferredSettlementExpiration
      (⟨[(3, 9), (5, 11)], []⟩ : CacheState Nat Nat) 5 0 true 5 true 4 12
      [(3, 9)] [] 11).2.2⟩

/-! ## Claim C5 -/

/-- C5: when a pending deferred value settles with a failure, the rejecter
created by `createPromiseRejecter` removes the key from the cache — so for
a cache without duplicate keys `has(key)` is false afterwards and the next
identical call is a fresh miss — and propagates the original failure
reason as a rejection rather than swallowing it. -/
theorem rejectedPromiseRemoval {K V E : Type} [DecidableEq K]
    (c : CacheState K V) (key : K) (exception : E)
    (h : (c.keyList).Nodup) :
    ((promiseRejecter c key exception).1.has key = false) ∧
    ((promiseRejecter c key exception).2 = Except.error exception) := by
  refine ⟨?_, rfl⟩
  unfold promiseRejecter CacheState.remove CacheState.has
  dsimp only
  exact eraseP_keyNodup_not_found c.list key h

/-- Witness for `rejectedPromiseRemoval`: rejecting the pending entry for
key 4 leaves a cache in which key 4 is absent and returns the original
exception. -/
theorem rejectedPromiseRemovalApplied :
    ((promiseRejecter (⟨[(4, 1), (6, 2)], []⟩ : CacheState Nat Nat)
        4 "boom").1.has 4 = false) ∧
    ((promiseRejecter (⟨[(4, 1), (6, 2)], []⟩ : CacheState Nat Nat)
        4 "boom").2 = Except.error "boom") :=
  rejectedPromiseRemoval (⟨[(4, 1), (6, 2)], []⟩ : CacheState Nat Nat)
    4 "boom" (by decide)

/-! ## Claim C4 -/

theorem standardKeyScan_eq_find {A V : Type}
    (m : StandardCacheKey A → List A → Bool → Bool)
    (list : List (StandardCacheKey A × V)) (key : List A) (isMulti : Bool) :
    ∀ (fuel index : Nat), list.length - index ≤ fuel →
      standardKeyScan m list key isMulti index =
        ((list.drop index).find? (fun e => m e.1 key isMulti)).map Prod.fst := by
  intro fuel
  induction fuel with
  | zero =>
    intro index hle
    have hge : list.length ≤ index := by omega
    unfold standardKeyScan
    rw [dif_neg (by omega), List.drop_eq_nil_of_le hge]
    rfl
  | succ n ih =>
    intro index hle
    unfold standardKeyScan
    by_cases hidx : index < list.length
    · rw [dif_pos hidx, List.drop_eq_getElem_cons hidx]
      by_cases hm : m (list.get ⟨index, hidx⟩).1 key isMulti
      · rw [if_pos hm, List.find?_cons_of_pos _ (by exact hm)]
        rfl
      · rw [if_neg hm, List.find?_cons_of_neg _ (by exact hm)]
        exact ih (index + 1) (by omega)
    · rw [dif_neg hidx, List.drop_eq_nil_of_le (by omega)]
      rfl

/-- C4: for every cache and already transformed argument tuple, the
standard resolver first tests only the most-recently-used entry
(`entries[0]`), on a head miss scans `entries[1..]` in recency order
returning the key of the first matching entry, and on a total miss returns
a freshly constructed key of the configured variant
(MultipleParameterCacheKey exactly when the tuple has more than one
element), never a sentinel or error: its result equals the first match of
the whole recency list, with the fresh key as the total-miss fallback. -/
theorem standardKeyResolutionOrder {A V : Type}
    (m : StandardCacheKey A → List A → Bool → Bool)
    (c : CacheState (StandardCacheKey A) V) (key : List A) :
    getStandardCacheKey m c key =
      match c.list.find? (fun e => m e.1 key (decide (1 < key.length))) with
      | some e => e.1
      | none =>
        if 1 < key.length then StandardCacheKey.multiple key
        else StandardCacheKey.single key := by
  unfold getStandardCacheKey
  dsimp only
  by_cases h0 : 0 < c.list.length
  · rw [dif_pos h0]
    have hdrop0 : c.list = c.list.get ⟨0, h0⟩ :: c.list.drop 1 := by
      conv_lhs => rw [← List.drop_zero c.list]
      rw [List.drop_eq_getElem_cons h0]
      rfl
    by_cases hm : m (c.list.get ⟨0, h0⟩).1 key (decide (1 < key.length))
    · rw [if_pos hm]
      conv_rhs => rw [hdrop0]
      rw [List.find?_cons_of_pos _ (by exact hm)]
    · rw [if_neg hm]
      rw [standardKeyScan_eq_find m c.list key _ (c.list.length - 1) 1
        (by omega)]
      conv_rhs => rw [hdrop0]
      rw [List.find?_cons_of_neg _ (by exact hm)]
      cases hfind : (c.list.drop 1).find? (fun e =>
          m e.1 key (decide (1 < key.length))) with
      | none => rfl
      | some e => rfl
  · rw [dif_neg h0]
    have hnil : c.list = [] := by
      cases hl : c.list with
      | nil => rfl
      | cons a t => rw [hl] at h0; simp at h0
    rw [standardKeyScan_eq_find m c.list key _ c.list.length 1 (by omega)]
    rw [hnil]
    rfl

/-! ## Claim C8 -/

theorem takeJS_of_le {α : Type} (size : Nat) (array : List α)
    (h : array.length ≤ size) : takeJS size array = array := by
  unfold takeJS
  rw [if_pos h]

theorem takeJS_of_lt {α : Type} (size : Nat) (array : List α)
    (h : size < array.length) : takeJS size array = array.take size := by
  unfold takeJS
  rw [if_neg (by omega)]
  match size, array with
  | 0, _ => rfl
  | 1, a0 :: _ => rfl
  | 2, a0 :: a1 :: _ => rfl
  | 2, [a0] => simp at h
  | 3, a0 :: a1 :: a2 :: _ => rfl
  | 3, [a0] => simp at h
  | 3, [a0, a1] => simp at h
  | 4, a0 :: a1 :: a2 :: a3 :: _ => rfl
  | 4, [a0] => simp at h
  | 4, [a0, a1] => simp at h
  | 4, [a0, a1, a2] => simp at h
  | 5, a0 :: a1 :: a2 :: a3 :: a4 :: _ => rfl
  | 5, [a0] => simp at h
  | 5, [a0, a1] => simp at h
  | 5, [a0, a1, a2] => simp at h
  | 5, [a0, a1, a2, a3] => simp at h
  | n + 6, _ => rfl
  | 1, [] => simp at h
  | 2, [] => simp at h
  | 3, [] => simp at h
  | 4, [] => simp at h
  | 5, [] => simp at h

/-- C8: for every raw argument list, when maxArgs, a user transform and
serialization are all configured, the value handed to key lookup is
`serializer(transform(take(maxArgs)(args)))` — truncation first, the user
transform composed after it, serialization composed last — and the
truncation returns the list unchanged when it has at most maxArgs
elements and its first maxArgs elements otherwise. -/
theorem argumentPipelineOrder {A : Type} (o : GetKeyOptions A)
    (t : List A → List A) (args : List A)
    (h1 : o.hasMaxArgs = true) (h2 : o.serialize = true)
    (h3 : o.transformArgs = some t) :
    (cacheKeyInput o args = o.serializer (t (takeJS o.maxArgs args))) ∧
    (args.length ≤ o.maxArgs → takeJS o.maxArgs args = args) ∧
    (o.maxArgs < args.length →
      takeJS o.maxArgs args = args.take o.maxArgs) := by
  refine ⟨?_, takeJS_of_le o.maxArgs args, takeJS_of_lt o.maxArgs args⟩
  unfold cacheKeyInput createGetCacheKeyTransform
  rw [h1, h2, h3]
  rfl

/-- Witness for `argumentPipelineOrder` at a concrete options record: the
composed transform applied to `[5, 6, 7]` equals the serializer applied to
the reversed truncation, and truncation behaves as a slice. -/
theorem argumentPipelineOrderApplied :
    (cacheKeyInput pipelineOptions [5, 6, 7] =
      pipelineOptions.serializer
        ((fun l => l.reverse) (takeJS pipelineOptions.maxArgs [5, 6, 7]))) ∧
    (takeJS pipelineOptions.maxArgs [5, 6, 7] = [5, 6, 7].take 2) ∧
    (cacheKeyInput pipelineOptions [5, 6, 7] = [0, 6, 5]) :=
  ⟨(argumentPipelineOrder pipelineOptions (fun l => l.reverse) [5, 6, 7]
      rfl rfl rfl).1,
   (argumentPipelineOrder pipelineOptions (fun l => l.reverse) [5, 6, 7]
      rfl rfl rfl).2.2 (by decide),
   by rfl⟩

/-! ## Claim C7 -/

theorem shallowLoop_some_ne_error (stored o : RObj) (ks : List String)
    (e : String) : shallowLoop (some stored) o ks ≠ Except.error e := by
  induction ks with
  | nil =>
    intro h
    cases h
  | cons k rest ih =>
    intro h
    unfold shallowLoop at h
    dsimp only at h
    by_cases hk : jsGet o k = jsGet stored k
    · rw [if_pos hk] at h
      exact ih h
    · rw [if_neg hk] at h
      cases h

theorem shallowLoop_ok_true_iff (stored o : RObj) (ks : List String) :
    shallowLoop (some stored) o ks = Except.ok true ↔
      ∀ k ∈ ks, jsGet o k = jsGet stored k := by
  induction ks with
  | nil => simp [shallowLoop]
  | cons k rest ih =>
    unfold shallowLoop
    dsimp only
    by_cases hk : jsGet o k = jsGet stored k
    · rw [if_pos hk]
      simp only [List.mem_cons]
      constructor
      · intro h x hx
        rcases hx with h1 | h2
        · exact h1 ▸ hk
        · exact ih.mp h x h2
      · intro h
        exact ih.mpr (fun x hx => h x (Or.inr hx))
    · rw [if_neg hk]
      simp only [List.mem_cons]
      constructor
      · intro h
        exact absurd h (by simp)
      · intro h
        exact absurd (h k (Or.inl rfl)) hk

/-- C7: for a ReactCacheKey built from present props and context,
`matches(key)` holds iff, for each half independently, the candidate
object has exactly as many own enumerable properties as the stored half
(the count is checked first in `_isPropShallowEqual`, rejecting
immediately on mismatch) and every first-level property value is
identical — strict equality on the value representation, which for object
values is reference identity, so the comparison never recurses into
nested structures. -/
theorem reactKeyShallowMatch (p cx q0 q1 : RObj) :
    reactMatchesE (mkReactCacheKey (some p) (some cx))
        (some q0) (some q1) = Except.ok true ↔
      (((jsKeys q0).length = (jsKeys p).length ∧
        ∀ k ∈ jsKeys q0, jsGet q0 k = jsGet p k) ∧
       ((jsKeys q1).length = (jsKeys cx).length ∧
        ∀ k ∈ jsKeys q1, jsGet q1 k = jsGet cx k)) := by
  unfold reactMatchesE isPropShallowEqualE mkReactCacheKey
  dsimp only
  by_cases h0 : (jsKeys q0).length = (jsKeys p).length
  · rw [if_neg (by omega)]
    by_cases hloop0 : shallowLoop (some p) q0 (jsKeys q0) = Except.ok true
    · rw [hloop0]
      by_cases h1 : (jsKeys q1).length = (jsKeys cx).length
      · rw [if_neg (by omega)]
        rw [shallowLoop_ok_true_iff]
        constructor
        · intro h
          exact ⟨⟨h0, (shallowLoop_ok_true_iff p q0 (jsKeys q0)).mp hloop0⟩,
            ⟨h1, h⟩⟩
        · intro h
          exact h.2.2
      · rw [if_pos (by omega)]
        constructor
        · intro h
          cases h
        · intro h
          exact absurd h.2.1 h1
    · cases hval : shallowLoop (some p) q0 (jsKeys q0) with
      | error e =>
        exact absurd hval (shallowLoop_some_ne_error p q0 (jsKeys q0) e)
      | ok b =>
        cases b with
        | true => exact absurd hval hloop0
        | false =>
          dsimp only
          constructor
          · intro h
            cases h
          · intro h
            exact absurd ((shallowLoop_ok_true_iff p q0 (jsKeys q0)).mpr
              h.1.2) (by rw [hval]; simp)
  · rw [if_pos (by omega)]
    constructor
    · intro h
      cases h
    · intro h
      exact absurd h.1.1 h0

/-! ## Claim C10 -/

/-- C10 counterexample: the claim states that for every stored
ReactCacheKey, a candidate tuple whose props or context element is absent
throws.  But `matches` evaluates the two halves with short-circuit
conjunction: for the stored key built from (\x7ba: 1\x7d, \x7bb: 2\x7d) and the
candidate (\x7b\x7d, undefined), the props half fails its count check and
returns false, so the absent context half is never evaluated and `matches`
returns false instead of throwing. -/
theorem reactMatchesMissingContextReturnsFalse :
    reactMatchesE
      (mkReactCacheKey (some [("a", RVal.vnum 1)]) (some [("b", RVal.vnum 2)]))
      (some []) none = Except.ok false := by
  rfl

/-- C10 amended: ReactCacheKey matching is partial at the public
interface, with the throw gated by short-circuit evaluation: a candidate
with an absent props element always throws (Object.keys applied to
undefined); a candidate with present props and absent context throws
exactly when the props half comparison succeeds, and returns false when
the props half fails; construction nevertheless tolerates missing halves,
recording size 0. -/
theorem reactMatchesPartiality (rk : ReactKey) (c0 : RObj)
    (c1 : Option RObj) :
    (reactMatchesE rk none c1 = Except.error "TypeError") ∧
    (isPropShallowEqualE rk.props rk.propsSize (some c0) = Except.ok true →
      reactMatchesE rk (some c0) none = Except.error "TypeError") ∧
    (isPropShallowEqualE rk.props rk.propsSize (some c0) = Except.ok false →
      reactMatchesE rk (some c0) none = Except.ok false) ∧
    ((mkReactCacheKey none none).propsSize = 0 ∧
      (mkReactCacheKey none none).contextSize = 0) := by
  refine ⟨rfl, ?_, ?_, rfl, rfl⟩
  · intro h
    unfold reactMatchesE
    rw [h]
    rfl
  · intro h
    unfold reactMatchesE
    rw [h]

/-- Witness for `reactMatchesPartiality` at concrete inputs: with stored
key (\x7ba: 1\x7d, \x7b\x7d) and candidate props \x7ba: 1\x7d (matching), a missing
context throws; with candidate props \x7b\x7d (count mismatch), it returns
false. -/
theorem reactMatchesPartialityApplied :
    (reactMatchesE (mkReactCacheKey (some [("a", RVal.vnum 1)]) (some []))
        none none = Except.error "TypeError") ∧
    (reactMatchesE (mkReactCacheKey (some [("a", RVal.vnum 1)]) (some []))
        (some [("a", RVal.vnum 1)]) none = Except.error "TypeError") ∧
    (reactMatchesE (mkReactCacheKey (some [("a", RVal.vnum 1)]) (some []))
        (some []) none = Except.ok false) :=
  ⟨(reactMatchesPartiality
      (mkReactCacheKey (some [("a", RVal.vnum 1)]) (some []))
      [("a", RVal.vnum 1)] none).1,
   (reactMatchesPartiality
      (mkReactCacheKey (some [("a", RVal.vnum 1)]) (some []))
      [("a", RVal.vnum 1)] none).2.1 rfl,
   (reactMatchesPartiality
      (mkReactCacheKey (some [("a", RVal.vnum 1)]) (some []))
      [] none).2.2.1 rfl⟩

/-! ## Claim C3 -/

theorem eraseP_last_of_keyNodup {K V : Type} [DecidableEq K]
    (l : List (K × V)) (e : K × V)
    (h : ((l ++ [e]).map Prod.fst).Nodup) :
    (l ++ [e]).eraseP (fun x => decide (x.1 = e.1)) = l := by
  induction l with
  | nil =>
    simp only [List.nil_append]
    rw [List.eraseP_cons_of_pos (by simp)]
  | cons a rest ih =>
    simp only [List.cons_append, List.map_cons, List.nodup_cons] at h
    have ha : a.1 ≠ e.1 := by
      intro hcontra
      exact h.1 (hcontra ▸ List.mem_map_of_mem Prod.fst (by simp))
    rw [List.cons_append, List.eraseP_cons_of_neg (by simp [ha]), ih h.2]

theorem take_append_take {α : Type} (a b : List α) (n : Nat) :
    (a ++ b.take n).take n = (a ++ b).take n := by
  rw [List.take_append_eq_append_take, List.take_append_eq_append_take,
    List.take_take]
  congr 1
  rw [Nat.min_eq_left (by omega)]

theorem lruStep_keyList {K V : Type} [DecidableEq K]
    (c : CacheState K V) (k : K) (v : V) (hma : Bool) (ma : Int) (N : Nat)
    (hN : 1 ≤ N) (hkc : k ∉ c.keyList) (hnd : c.keyList.Nodup)
    (hlen : c.list.length ≤ N) :
    (setNewCachedValueStandard c k v hma ma true N).keyList =
      (k :: c.keyList).take N := by
  unfold setNewCachedValueStandard
  have hlist2 : (if hma then (c.add k v).expireAfter k ma
      else c.add k v).list = (k, v) :: c.list := by
    split
    · rfl
    · rfl
  dsimp only
  by_cases hsz : c.list.length < N
  · rw [if_neg]
    · unfold CacheState.keyList
      rw [hlist2, List.map_cons]
      rw [List.take_of_length_le (by
        simp only [List.length_cons, List.length_map,
          CacheState.keyList, List.length_map]
        omega)]
    · intro hcontra
      simp only [Bool.true_and, decide_eq_true_eq] at hcontra
      unfold CacheState.size at hcontra
      rw [hlist2] at hcontra
      simp only [List.length_cons] at hcontra
      omega
  · have hsz2 : c.list.length = N := by omega
    rw [if_pos]
    · have hkeys : (((k, v) :: c.list).map Prod.fst).Nodup := by
        rw [List.map_cons]
        exact List.nodup_cons.mpr ⟨hkc, hnd⟩
      obtain ⟨l2, e, hLe⟩ : ∃ l2 e, (k, v) :: c.list = l2 ++ [e] := by
        cases List.eq_nil_or_concat ((k, v) :: c.list) with
        | inl h => cases h
        | inr h =>
          obtain ⟨l2, e, h⟩ := h
          exact ⟨l2, e, by rw [h, List.concat_eq_append]⟩
      unfold CacheState.remove CacheState.tailKey CacheState.keyList
      rw [hlist2, hLe, List.getLast?_concat]
      dsimp only
      rw [eraseP_last_of_keyNodup l2 e (by rw [← hLe]; exact hkeys)]
      have hl2 : l2 = ((k, v) :: c.list).dropLast := by
        rw [hLe, List.dropLast_concat]
      rw [hl2, List.map_dropLast, List.map_cons, List.dropLast_eq_take]
      congr 1
      simp only [List.length_cons, List.length_map]
      omega
    · simp only [Bool.true_and, decide_eq_true_eq]
      unfold CacheState.size
      rw [hlist2]
      simp only [List.length_cons]
      omega

theorem lruFold_keyList {K V : Type} [DecidableEq K] (vals : K → V)
    (hma : Bool) (ma : Int) (N : Nat) (hN : 1 ≤ N) :
    ∀ (ks : List K) (c : CacheState K V), ks.Nodup → c.keyList.Nodup →
      (∀ k ∈ ks, k ∉ c.keyList) → c.list.length ≤ N →
      (ks.foldl (fun acc k =>
          setNewCachedValueStandard acc k (vals k) hma ma true N) c).keyList
        = (ks.reverse ++ c.keyList).take N := by
  intro ks
  induction ks with
  | nil =>
    intro c _ hcnd _ hlen
    simp only [List.foldl_nil, List.reverse_nil, List.nil_append]
    rw [List.take_of_length_le (by
      unfold CacheState.keyList
      simp only [List.length_map]
      omega)]
  | cons k rest ih =>
    intro c hnd hcnd hdisj hlen
    rw [List.foldl_cons]
    have hstep := lruStep_keyList c k (vals k) hma ma N hN
      (hdisj k (by simp)) hcnd hlen
    have hnd0 : (k :: c.keyList).Nodup :=
      List.nodup_cons.mpr ⟨hdisj k (by simp), hcnd⟩
    have hcnd2 : (setNewCachedValueStandard c k (vals k) hma
        ma true N).keyList.Nodup := by
      rw [hstep]
      exact (List.take_sublist N (k :: c.keyList)).nodup hnd0
    have hlen2 : (setNewCachedValueStandard c k (vals k) hma
        ma true N).list.length ≤ N := by
      have hkl : (setNewCachedValueStandard c k (vals k) hma
          ma true N).keyList.length ≤ N := by
        rw [hstep]
        simp only [List.length_take]
        omega
      unfold CacheState.keyList at hkl
      simp only [List.length_map] at hkl
      exact hkl
    have hdisj2 : ∀ k2 ∈ rest, k2 ∉ (setNewCachedValueStandard c k (vals k)
        hma ma true N).keyList := by
      intro k2 hk2
      rw [hstep]
      intro hmem
      have hmem2 : k2 ∈ k :: c.keyList := List.mem_of_mem_take hmem
      rcases List.mem_cons.mp hmem2 with h1 | h2
      · exact (List.nodup_cons.mp hnd).1 (h1 ▸ hk2)
      · exact hdisj k2 (List.mem_cons_of_mem k hk2) h2
    rw [ih _ (List.nodup_cons.mp hnd).2 hcnd2 hdisj2 hlen2, hstep]
    rw [take_append_take, List.reverse_cons, List.append_assoc]
    rfl

/-- C3: LRU size bound.  The default maxSize from DEFAULT_OPTIONS is 1,
and after folding N+1 adds of pairwise distinct keys through
`createSetNewCachedValue` with maxSize N (each add removing the tail
entry whenever `size > maxSize`), the first key has been evicted —
`has(k1)` is false — while every later key is still present. -/
theorem lruSizeBound {K V : Type} [DecidableEq K] (vals : K → V)
    (hma : Bool) (ma : Int) (N : Nat) (k1 : K) (rest : List K)
    (hN : 1 ≤ N) (hlen : (k1 :: rest).length = N + 1)
    (hnd : (k1 :: rest).Nodup) :
    DEFAULT_OPTIONS.maxSize = 1 ∧
    (((k1 :: rest).foldl (fun acc k =>
        setNewCachedValueStandard acc k (vals k) hma ma true N)
        ⟨[], []⟩).has k1 = false) ∧
    (∀ k ∈ rest, ((k1 :: rest).foldl (fun acc k =>
        setNewCachedValueStandard acc k (vals k) hma ma true N)
        ⟨[], []⟩).has k = true) := by
  have hfold := lruFold_keyList vals hma ma N hN (k1 :: rest)
    (⟨[], []⟩ : CacheState K V) hnd (by
      unfold CacheState.keyList
      simp) (by
      intro k _
      unfold CacheState.keyList
      simp) (by simp)
  have hkeys : ((k1 :: rest).foldl (fun acc k =>
      setNewCachedValueStandard acc k (vals k) hma ma true N)
      ⟨[], []⟩).keyList = rest.reverse := by
    rw [hfold]
    have hemp : (⟨[], []⟩ : CacheState K V).keyList = [] := by
      unfold CacheState.keyList
      simp
    rw [hemp, List.append_nil, List.reverse_cons]
    exact List.take_left' (by
      simp only [List.length_reverse]
      simp only [List.length_cons] at hlen
      omega)
  refine ⟨rfl, ?_, ?_⟩
  · rw [Bool.eq_false_iff]
    intro htrue
    have hmem := (cacheHas_iff_mem_keyList _ _).mp htrue
    rw [hkeys, List.mem_reverse] at hmem
    exact (List.nodup_cons.mp hnd).1 hmem
  · intro k hk
    exact (cacheHas_iff_mem_keyList _ _).mpr (by
      rw [hkeys, List.mem_reverse]
      exact hk)

/-- Witness for `lruSizeBound`: with maxSize 1 and the two distinct keys
0 then 1 added in order, key 0 is evicted and key 1 is present. -/
theorem lruSizeBoundApplied :
    DEFAULT_OPTIONS.maxSize = 1 ∧
    (([0, 1].foldl (fun acc k =>
        setNewCachedValueStandard acc k k false 0 true 1)
        (⟨[], []⟩ : CacheState Nat Nat)).has 0 = false) ∧
    (([0, 1].foldl (fun acc k =>
        setNewCachedValueStandard acc k k false 0 true 1)
        (⟨[], []⟩ : CacheState Nat Nat)).has 1 = true) := by
  have h := lruSizeBound (fun k => k) false 0 1 0 [1] (by decide) (by decide)
    (by decide)
  exact ⟨h.1, h.2.1, h.2.2 1 (by decide)⟩

/-! ## Claim C6 -/

theorem nodup_bounded_length {l : List Nat} {n : Nat} (hnd : l.Nodup)
    (hb : ∀ x ∈ l, x < n) : l.length ≤ n := by
  calc l.length = l.toFinset.card := (List.toFinset_card_of_nodup hnd).symm
    _ ≤ (Finset.range n).card := Finset.card_le_card (by
        intro x hx
        rw [List.mem_toFinset] at hx
        rw [Finset.mem_range]
        exact hb x hx)
    _ = n := Finset.card_range n

theorem collectResults_ne_none {E A : Type}
    (L : List (Option (Except E A))) (h : ∀ x ∈ L, x ≠ none) :
    collectResults L ≠ none := by
  induction L with
  | nil => simp [collectResults]
  | cons x rest ih =>
    cases x with
    | none => exact absurd rfl (h none (by simp))
    | some r =>
      cases r with
      | error e => simp [collectResults]
      | ok s =>
        unfold collectResults
        cases hcr : collectResults rest with
        | none => exact absurd hcr (ih (fun y hy => h y (by simp [hy])))
        | some rr => cases rr <;> simp

theorem stringifyJ_ne_none (h : JHeap) (hwf : heapWf h) :
    ∀ (fuel id : Nat) (stack : List Nat), id < h.nodes.length →
      stack.Nodup → (∀ x ∈ stack, x < h.nodes.length) →
      h.nodes.length + 1 ≤ fuel + stack.length →
      stringifyJ h fuel id stack ≠ none := by
  intro fuel
  induction fuel with
  | zero =>
    intro id stack hid hnd hb hf
    exfalso
    have := nodup_bounded_length hnd hb
    omega
  | succ n ih =>
    intro id stack hid hnd hb hf
    have hsome : h.nodes[id]? = some h.nodes[id] :=
      List.getElem?_eq_getElem hid
    have hmemnode : h.nodes[id] ∈ h.nodes := List.getElem_mem hid
    unfold stringifyJ
    rw [hsome]
    cases hnode : h.nodes[id] with
    | jnull => simp
    | jbool b => simp
    | jnum m => simp
    | jstr s => simp
    | jarr elems =>
      rw [hnode] at hmemnode
      dsimp only
      by_cases hin : id ∈ stack
      · rw [if_pos hin]
        simp
      · rw [if_neg hin]
        cases hcr : collectResults
            (elems.map fun e => stringifyJ h n e (id :: stack)) with
        | none =>
          exfalso
          apply collectResults_ne_none _ _ hcr
          intro x hx
          obtain ⟨e, he, rfl⟩ := List.mem_map.mp hx
          apply ih e (id :: stack)
          · exact hwf _ hmemnode e (by
              unfold JNode.refs
              exact he)
          · exact List.nodup_cons.mpr ⟨hin, hnd⟩
          · intro y hy
            rcases List.mem_cons.mp hy with h1 | h2
            · exact h1 ▸ hid
            · exact hb y h2
          · simp only [List.length_cons]
            omega
        | some r => cases r <;> simp
    | jobj fields =>
      rw [hnode] at hmemnode
      dsimp only
      by_cases hin : id ∈ stack
      · rw [if_pos hin]
        simp
      · rw [if_neg hin]
        cases hcr : collectResults
            (fields.map fun f =>
              (stringifyJ h n f.2 (id :: stack)).map
                (Except.map fun s => jsonQuote f.1 ++ ":" ++ s)) with
        | none =>
          exfalso
          apply collectResults_ne_none _ _ hcr
          intro x hx
          obtain ⟨f, hf, rfl⟩ := List.mem_map.mp hx
          rw [Ne, Option.map_eq_none']
          apply ih f.2 (id :: stack)
          · exact hwf _ hmemnode f.2 (by
              unfold JNode.refs
              exact List.mem_map_of_mem Prod.snd hf)
          · exact List.nodup_cons.mpr ⟨hin, hnd⟩
          · intro y hy
            rcases List.mem_cons.mp hy with h1 | h2
            · exact h1 ▸ hid
            · exact hb y h2
          · simp only [List.length_cons]
            omega
        | some r => cases r <;> simp

theorem derez_ne_none (h : JHeap) (hwf : heapWf h) :
    ∀ (fuel id : Nat) (path : String) (st : DState),
      id < h.nodes.length → dstateOk h st →
      h.nodes.length + 1 ≤ fuel + st.objects.length →
      ∃ t st2, derez h fuel id path st = some (t, st2) ∧ dstateOk h st2 ∧
        ∃ ext, st2.objects = st.objects ++ ext := by
  intro fuel
  induction fuel with
  | zero =>
    intro id path st hid hok hf
    exfalso
    have := nodup_bounded_length hok.1 hok.2
    omega
  | succ n ih =>
    intro id path st hid hok hf
    have hsome : h.nodes[id]? = some h.nodes[id] :=
      List.getElem?_eq_getElem hid
    have hmemnode := List.getElem_mem hid
    unfold derez
    rw [hsome]
    cases hnode : h.nodes[id] with
    | jnull => exact ⟨JTree.tnull, st, rfl, hok, [], by simp⟩
    | jbool b => exact ⟨JTree.tbool b, st, rfl, hok, [], by simp⟩
    | jnum m => exact ⟨JTree.tnum m, st, rfl, hok, [], by simp⟩
    | jstr s => exact ⟨JTree.tstr s, st, rfl, hok, [], by simp⟩
    | jarr elems =>
      rw [hnode] at hmemnode
      dsimp only
      cases hidx : st.objects.findIdx? (fun o => decide (o = id)) with
      | some i =>
        exact ⟨JTree.tref (st.paths.getD i ""), st, rfl, hok, [], by simp⟩
      | none =>
        have hnotin : id ∉ st.objects :=
          (findIdxPred_none_iff_not_mem _ _).mp hidx
        have hok1 : dstateOk h ⟨st.objects ++ [id], st.paths ++ [path]⟩ := by
          constructor
          · rw [List.nodup_append]
            exact ⟨hok.1, List.nodup_singleton id, by
              intro x hx hy
              rw [List.mem_singleton] at hy
              exact hnotin (hy ▸ hx)⟩
          · intro x hx
            rcases List.mem_append.mp hx with h1 | h2
            · exact hok.2 x h1
            · rw [List.mem_singleton] at h2
              exact h2 ▸ hid
        have hchild : ∀ p ∈ elems.enum, p.2 < h.nodes.length := by
          intro p hp
          have hp2 : p.2 ∈ elems :=
            List.getElem?_mem (List.mem_enum_iff_getElem?.mp hp)
          exact hwf _ hmemnode p.2 (by
            unfold JNode.refs
            exact hp2)
        have hfold : ∀ (children : List (Nat × Nat)) (ts : List JTree)
            (st0 : DState),
            (∀ p ∈ children, p.2 < h.nodes.length) → dstateOk h st0 →
            h.nodes.length + 1 ≤ n + st0.objects.length →
            ∃ ts2 st2, (children.foldl
              (fun acc (p : Nat × Nat) =>
                match acc with
                | none => none
                | some (tsa, stAcc) =>
                  match derez h n p.2
                      (path ++ "[" ++ toString p.1 ++ "]") stAcc with
                  | none => none
                  | some (t, stNext) => some (tsa ++ [t], stNext))
              (some (ts, st0))) = some (ts2, st2) ∧ dstateOk h st2 ∧
              ∃ ext, st2.objects = st0.objects ++ ext := by
          intro children
          induction children with
          | nil =>
            intro ts st0 _ hok0 _
            exact ⟨ts, st0, rfl, hok0, [], by simp⟩
          | cons p ps ihc =>
            intro ts st0 hch hok0 hf0
            rw [List.foldl_cons]
            obtain ⟨t, stN, hN, hokN, ext1, hext1⟩ :=
              ih p.2 (path ++ "[" ++ toString p.1 ++ "]") st0
                (hch p (by simp)) hok0 hf0
            dsimp only
            rw [hN]
            dsimp only
            obtain ⟨ts2, st2, h2, hok2, ext2, hext2⟩ :=
              ihc (ts ++ [t]) stN (fun q hq => hch q (by simp [hq])) hokN
                (by
                  rw [hext1]
                  simp only [List.length_append]
                  omega)
            exact ⟨ts2, st2, h2, hok2, ext1 ++ ext2, by
              rw [hext2, hext1, List.append_assoc]⟩
        obtain ⟨ts2, st2, h2, hok2, ext, hext⟩ :=
          hfold elems.enum [] ⟨st.objects ++ [id], st.paths ++ [path]⟩
            hchild hok1 (by
              simp only [List.length_append, List.length_singleton]
              omega)
        rw [h2]
        exact ⟨JTree.tarr ts2, st2, rfl, hok2, id :: ext, by
          rw [hext]
          simp [List.append_assoc]⟩
    | jobj fields =>
      rw [hnode] at hmemnode
      dsimp only
      cases hidx : st.objects.findIdx? (fun o => decide (o = id)) with
      | some i =>
        exact ⟨JTree.tref (st.paths.getD i ""), st, rfl, hok, [], by simp⟩
      | none =>
        have hnotin : id ∉ st.objects :=
          (findIdxPred_none_iff_not_mem _ _).mp hidx
        have hok1 : dstateOk h ⟨st.objects ++ [id], st.paths ++ [path]⟩ := by
          constructor
          · rw [List.nodup_append]
            exact ⟨hok.1, List.nodup_singleton id, by
              intro x hx hy
              rw [List.mem_singleton] at hy
              exact hnotin (hy ▸ hx)⟩
          · intro x hx
            rcases List.mem_append.mp hx with h1 | h2
            · exact hok.2 x h1
            · rw [List.mem_singleton] at h2
              exact h2 ▸ hid
        have hchild : ∀ f ∈ fields, f.2 < h.nodes.length := by
          intro f hf
          exact hwf _ hmemnode f.2 (by
            unfold JNode.refs
            exact List.mem_map_of_mem Prod.snd hf)
        have hfold : ∀ (children : List (String × Nat))
            (ts : List (String × JTree)) (st0 : DState),
            (∀ f ∈ children, f.2 < h.nodes.length) → dstateOk h st0 →
            h.nodes.length + 1 ≤ n + st0.objects.length →
            ∃ ts2 st2, (children.foldl
              (fun acc (f : String × Nat) =>
                match acc with
                | none => none
                | some (tsa, stAcc) =>
                  match derez h n f.2
                      (path ++ "[" ++ jsonQuote f.1 ++ "]") stAcc with
                  | none => none
                  | some (t, stNext) => some (tsa ++ [(f.1, t)], stNext))
              (some (ts, st0))) = some (ts2, st2) ∧ dstateOk h st2 ∧
              ∃ ext, st2.objects = st0.objects ++ ext := by
          intro children
          induction children with
          | nil =>
            intro ts st0 _ hok0 _
            exact ⟨ts, st0, rfl, hok0, [], by simp⟩
          | cons f fs ihc =>
            intro ts st0 hch hok0 hf0
            rw [List.foldl_cons]
            obtain ⟨t, stN, hN, hokN, ext1, hext1⟩ :=
              ih f.2 (path ++ "[" ++ jsonQuote f.1 ++ "]") st0
                (hch f (by simp)) hok0 hf0
            dsimp only
            rw [hN]
            dsimp only
            obtain ⟨ts2, st2, h2, hok2, ext2, hext2⟩ :=
              ihc (ts ++ [(f.1, t)]) stN (fun q hq => hch q (by simp [hq]))
                hokN (by
                  rw [hext1]
                  simp only [List.length_append]
                  omega)
            exact ⟨ts2, st2, h2, hok2, ext1 ++ ext2, by
              rw [hext2, hext1, List.append_assoc]⟩
        obtain ⟨ts2, st2, h2, hok2, ext, hext⟩ :=
          hfold fields [] ⟨st.objects ++ [id], st.paths ++ [path]⟩
            hchild hok1 (by
              simp only [List.length_append, List.length_singleton]
              omega)
        rw [h2]
        exact ⟨JTree.tobj ts2, st2, rfl, hok2, id :: ext, by
          rw [hext]
          simp [List.append_assoc]⟩

/-- C6: cycle-safe serialization.  For every well-formed heap value,
`stringify` first attempts plain `JSON.stringify`; exactly when that
throws (on a circular structure) it re-stringifies the reference-breaking
`decycle` transform, in which repeated or cyclic substructures are the
path marker `$ref` tree nodes; the result — deterministic because
`stringifyJS` is a function of its input — is the string used as the
compared key, and some string is always produced, so no runtime fault
escapes even for cyclic input. -/
theorem cycleSafeStringification (h : JHeap) (root : Nat) (hwf : heapWf h)
    (hroot : root < h.nodes.length) :
    ∃ s, stringifyJS h root = some s ∧
      (∀ s0, jsonStringifyHeap h root = some (Except.ok s0) → s = s0) ∧
      (jsonStringifyHeap h root = some (Except.error ()) →
        ∃ t, decycleHeap h root = some t ∧ s = treeToJson t) := by
  have hA : jsonStringifyHeap h root ≠ none := by
    unfold jsonStringifyHeap
    exact stringifyJ_ne_none h hwf (h.nodes.length + 1) root [] hroot
      List.nodup_nil (by simp) (by simp)
  cases hres : jsonStringifyHeap h root with
  | none => exact absurd hres hA
  | some r =>
    cases r with
    | ok s =>
      refine ⟨s, ?_, ?_, ?_⟩
      · unfold stringifyJS
        rw [hres]
      · intro s0 h0
        exact Except.ok.inj (Option.some.inj h0)
      · intro hcontra
        exfalso
        simp at hcontra
    | error u =>
      cases u
      obtain ⟨t, st2, hder, _, _⟩ := derez_ne_none h hwf
        (h.nodes.length + 1) root "$" ⟨[], []⟩ hroot
        ⟨List.nodup_nil, by simp⟩ (by simp)
      refine ⟨treeToJson t, ?_, ?_, ?_⟩
      · unfold stringifyJS decycleHeap
        rw [hres, hder]
        rfl
      · intro s0 h0
        exfalso
        simp at h0
      · intro _
        refine ⟨t, ?_, rfl⟩
        unfold decycleHeap
        rw [hder]
        rfl

theorem treeToJson_tref (p : String) :
    treeToJson (JTree.tref p) = "\x7b\"$ref\":" ++ jsonQuote p ++ "\x7d" := by
  rw [treeToJson.eq_def]

theorem treeToJson_tobj (fields : List (String × JTree)) :
    treeToJson (JTree.tobj fields) =
      "\x7b" ++ String.intercalate ","
        (fields.map fun f => jsonQuote f.1 ++ ":" ++ treeToJson f.2)
        ++ "\x7d" := by
  rw [treeToJson.eq_def]
  dsimp only
  rw [List.attach_map_val fields
    (fun f => jsonQuote f.1 ++ ":" ++ treeToJson f.2)]

/-- Witness for `cycleSafeStringification` at the self-referential
one-object heap: the claim instance holds and the produced key is the
deterministic string with the `$ref` marker for the cycle. -/
theorem cycleSafeStringificationApplied :
    heapWf cyclicSelfHeap ∧ 0 < cyclicSelfHeap.nodes.length ∧
    (∃ s, stringifyJS cyclicSelfHeap 0 = some s ∧
      (∀ s0, jsonStringifyHeap cyclicSelfHeap 0 = some (Except.ok s0) →
        s = s0) ∧
      (jsonStringifyHeap cyclicSelfHeap 0 = some (Except.error ()) →
        ∃ t, decycleHeap cyclicSelfHeap 0 = some t ∧ s = treeToJson t)) ∧
    stringifyJS cyclicSelfHeap 0 =
      some "\x7b\"self\":\x7b\"$ref\":\"$\"\x7d\x7d" :=
  ⟨by decide, by decide,
   cycleSafeStringification cyclicSelfHeap 0 (by decide) (by decide),
   by
    have h1 : decycleHeap cyclicSelfHeap 0 =
        some (JTree.tobj [("self", JTree.tref "$")]) := rfl
    have h2 : treeToJson (JTree.tobj [("self", JTree.tref "$")]) =
        "\x7b\"self\":\x7b\"$ref\":\"$\"\x7d\x7d" := by
      rw [treeToJson_tobj]
      simp only [List.map_cons, List.map_nil]
      rw [treeToJson_tref]
      rfl
    show (decycleHeap cyclicSelfHeap 0).map treeToJson = _
    rw [h1]
    have h3 : Option.map treeToJson
        (some (JTree.tobj [("self", JTree.tref "$")])) =
        some (treeToJson (JTree.tobj [("self", JTree.tref "$")])) := rfl
    rw [h3, h2]⟩
